import Mathlib

/-!
Verification of the mild runtime (`src/mild.js`): the transactional store
scheduler (`Store.send`, `Store.#scheduleRender`, `Store.run`), the render
gate (`rendering`), and the keyed list reconciler (`list`, `insertElementAt`,
`getId`).  DOM nodes are modelled as records carrying an identity (`eid`,
standing for JS object reference identity) and the hidden `_id` bookkeeping
slot; `parent.children` is a list of such records, and every childList
mutation performed by the reconciler is logged as a `DomOp`.
-/

namespace Mild

/-- JS primitive values that appear as item ids: `undefined` (reading an
absent property), `null`, or an ordinary key (modelled as a string). -/
inductive JsVal where
  | undef : JsVal
  | null : JsVal
  | str : String → JsVal
deriving DecidableEq, Repr

/-- A JS state object as consumed by `getId`: its `id` property.
A missing `id` property reads as `JsVal.undef`. -/
structure JsObj where
  id : JsVal
deriving DecidableEq, Repr

/-- `src/mild.js` line 299: `export const getId = object => object.id`. -/
def getId (o : JsObj) : JsVal := o.id

/-- A DOM element: `eid` is its object identity (two elements are `===` iff
their `eid`s are equal; fresh elements get fresh `eid`s), `key` is the value
of the hidden `_id` bookkeeping slot (`JsVal.undef` when never assigned). -/
structure Elem where
  eid : Nat
  key : JsVal
deriving DecidableEq, Repr

/-- A childList mutation on the parent: `remove` logs `removeChild`,
`insert` logs `insertBefore` (anchor `none` = append at the end).  An
`insert` of an element already in the child list is a move. -/
inductive DomOp where
  | remove : Nat → DomOp
  | insert : Nat → Option Nat → DomOp
deriving DecidableEq, Repr

/-- Lookup in a JS `Map` modelled as an association list to which
`Map.set` prepends; hence the first hit is the most recent `set`,
matching JS `Map.get` (last write wins). -/
def mapGet {α : Type} : List (JsVal × α) → JsVal → Option α
  | [], _ => none
  | p :: rest, k => if p.1 = k then some p.2 else mapGet rest k

/-- JS `Map.has`. -/
def mapHas {α : Type} (m : List (JsVal × α)) (k : JsVal) : Bool :=
  (mapGet m k).isSome

/-- Remove the first occurrence of `x` (a DOM node occurs at most once in a
child list, so this is DOM node removal). -/
def eraseFirst : List Elem → Elem → List Elem
  | [], _ => []
  | c :: rest, x => if c = x then rest else c :: eraseFirst rest x

/-- Insert `e` immediately before the first occurrence of the anchor `a`.
(DOM `insertBefore` requires the anchor to be a child; in all uses below it
is; if it is not, this models appending.) -/
def insertBeforeAux (e a : Elem) : List Elem → List Elem
  | [] => [e]
  | c :: rest => if c = a then e :: c :: rest else c :: insertBeforeAux e a rest

/-- DOM `parent.insertBefore(e, anchor)`: detach `e` from the parent if
present, then insert it before `anchor` (append when `anchor` is
null/undefined). -/
def insertBeforeDom (children : List Elem) (e : Elem) (anchor : Option Elem) :
    List Elem :=
  match anchor with
  | none => eraseFirst children e ++ [e]
  | some a => insertBeforeAux e a (eraseFirst children e)

/-- `src/mild.js` lines 278-284 (`insertElementAt`): read
`parent.children[index]`; if it `===` the element, do nothing; otherwise
`insertBefore` the element at that index.  Returns the new child list and
the childList mutations performed. -/
def insertElementAt (children : List Elem) (e : Elem) (i : Nat) :
    List Elem × List DomOp :=
  match children[i]? with
  | none => (insertBeforeDom children e none, [DomOp.insert e.eid none])
  | some a =>
    if a = e then (children, [])
    else (insertBeforeDom children e (some a), [DomOp.insert e.eid (some a.eid)])

/-- `src/mild.js` lines 384-390: build `stateMap`, throwing
`TypeError("State does not have an ID")` when `id(state) === null`.
Note the source compares with `===`, so `undefined` ids pass the check. -/
def buildStateMap {S : Type} (idf : S → JsVal) :
    List S → List (JsVal × S) → Except String (List (JsVal × S))
  | [], m => Except.ok m
  | s :: rest, m =>
    if idf s = JsVal.null then Except.error "State does not have an ID"
    else buildStateMap idf rest ((idf s, s) :: m)

/-- `src/mild.js` lines 395-398: `childMap.set(child[_id], child)` for every
current child (prepending models `Map.set`, see `mapGet`). -/
def buildChildMap (children : List Elem) : List (JsVal × Elem) :=
  children.foldl (fun m c => (c.key, c) :: m) []

/-- `src/mild.js` lines 404-406: remove each queued child from the parent,
logging the `removeChild` calls in order. -/
def removeAll : List Elem → List Elem → List Elem × List DomOp
  | cs, [] => (cs, [])
  | cs, r :: rest =>
    let res := removeAll (eraseFirst cs r) rest
    (res.1, DomOp.remove r.eid :: res.2)

/-- The reconciler's mutable state during the add/re-order pass: the
parent's children, the childList mutations so far, and the next fresh
object identity handed out by `create`. -/
structure ListSt where
  children : List Elem
  ops : List DomOp
  nextId : Nat
deriving DecidableEq, Repr

/-- `src/mild.js` lines 409-422: the add/re-order pass of `list`.  For each
state at index `i`, look up its element in `childMap`; if absent
(`child == null`), `create` a fresh element, set its `_id`, and insert at
`i`; otherwise re-position the existing element at `i` (and re-render it,
which performs no childList mutation). -/
def listLoop {S : Type} (idf : S → JsVal) (childMap : List (JsVal × Elem)) :
    List S → Nat → ListSt → ListSt
  | [], _, st => st
  | s :: rest, i, st =>
    match mapGet childMap (idf s) with
    | none =>
      let child : Elem := ⟨st.nextId, idf s⟩
      let r := insertElementAt st.children child i
      listLoop idf childMap rest (i + 1) ⟨r.1, st.ops ++ r.2, st.nextId + 1⟩
    | some child =>
      let r := insertElementAt st.children child i
      listLoop idf childMap rest (i + 1) ⟨r.1, st.ops ++ r.2, st.nextId⟩

/-- `src/mild.js` lines 377-423 (`list`): validate states and build
`stateMap`; on a throw the parent is returned untouched with no mutations
performed (`Except.error`).  Otherwise index the current children, remove
the children whose key is no longer in `stateMap`, then run the add/re-order
pass.  `nextId` supplies fresh object identities for `create`. -/
def listRun {S : Type} (idf : S → JsVal) (parent : List Elem) (states : List S)
    (nextId : Nat) : Except (List Elem × List DomOp) ListSt :=
  match buildStateMap idf states [] with
  | Except.error _ => Except.error (parent, [])
  | Except.ok stateMap =>
    let childMap := buildChildMap parent
    let removes := parent.filter (fun c => !(mapHas stateMap c.key))
    let afterRemove := removeAll parent removes
    Except.ok (listLoop idf childMap states 0
      ⟨afterRemove.1, afterRemove.2, nextId⟩)

/-- The scheduling-relevant state of a `Store` (`src/mild.js` lines 84-131):
the current `#state`, the `#isRenderScheduled` flag, plus two observers:
`framesQueued` counts animation-frame callbacks currently requested and not
yet fired, and `renders` logs the state passed to `#render` at each firing. -/
structure Sched (S : Type) where
  state : S
  isRenderScheduled : Bool
  framesQueued : Nat
  renders : List S
deriving DecidableEq, Repr

/-- A freshly constructed store: no render scheduled, none queued. -/
def Sched.init {S : Type} (s : S) : Sched S := ⟨s, false, 0, []⟩

/-- `src/mild.js` lines 122-126 (the synchronous prefix of
`#scheduleRender`): if a render is already scheduled, return; otherwise set
the flag and request an animation frame. -/
def scheduleRender {S : Type} (σ : Sched S) : Sched S :=
  if σ.isRenderScheduled then σ
  else { σ with isRenderScheduled := true, framesQueued := σ.framesQueued + 1 }

/-- `src/mild.js` lines 113-120 (`Store.send`): compute the transaction,
unconditionally overwrite `#state`, then call `#scheduleRender`.  (Effects
are dispatched asynchronously; each eventual `send` they cause is a separate
`send` event.) -/
def send {S A : Type} (upd : S → A → S) (σ : Sched S) (a : A) : Sched S :=
  scheduleRender { σ with state := upd σ.state a }

/-- `src/mild.js` lines 127-130: the animation-frame callback fires
(consuming the queued frame), `#render` is invoked with `#state` as read at
that moment, the render callback may itself `send` actions (`inner`), and
only after it returns is `#isRenderScheduled` cleared. -/
def fireFrame {S A : Type} (upd : S → A → S) (inner : List A) (σ : Sched S) :
    Sched S :=
  let σ₁ : Sched S :=
    { σ with framesQueued := σ.framesQueued - 1,
             renders := σ.renders ++ [σ.state] }
  let σ₂ := inner.foldl (send upd) σ₁
  { σ₂ with isRenderScheduled := false }

/-- An externally observable scheduling event: a `send` call, or the firing
of a requested animation frame whose render callback performs the given
`send`s during its own execution. -/
inductive Event (A : Type) where
  | send : A → Event A
  | frame : List A → Event A

/-- One step of the store scheduler.  A `frame` event can only do something
when a frame callback is actually queued. -/
def step {S A : Type} (upd : S → A → S) (σ : Sched S) : Event A → Sched S
  | Event.send a => send upd σ a
  | Event.frame inner => if σ.framesQueued = 0 then σ else fireFrame upd inner σ

/-- Run a store from a fresh state through a sequence of events. -/
def runTrace {S A : Type} (upd : S → A → S) (s0 : S)
    (events : List (Event A)) : Sched S :=
  events.foldl (step upd) (Sched.init s0)

/-- A JS value by reference: `addr` is the object identity (two values are
`===` iff their `addr`s agree), `val` its structural content. -/
structure Ref (V : Type) where
  addr : Nat
  val : V
deriving DecidableEq, Repr

/-- Reference equality of the cached `element[_state]` slot (absent =
`none`, i.e. `undefined`) against an incoming state object. -/
def sameRef {V : Type} (prev : Option (Ref V)) (s : Ref V) : Bool :=
  match prev with
  | none => false
  | some p => p.addr == s.addr

/-- `src/mild.js` lines 235-241 (`renderWhenChanged`, the function returned
by `rendering`): if the cached state reference differs from `state`, invoke
the underlying write and cache `state`.  Returns the new cache slot and the
number of underlying writes performed (0 or 1). -/
def renderWhenChanged {V : Type} (slot : Option (Ref V)) (s : Ref V) :
    Option (Ref V) × Nat :=
  if sameRef slot s then (slot, 0) else (some s, 1)

/-- Thread one gated call through an accumulator of (slot, write count). -/
def gateStep {V : Type} (acc : Option (Ref V) × Nat) (s : Ref V) :
    Option (Ref V) × Nat :=
  let r := renderWhenChanged acc.1 s
  (r.1, acc.2 + r.2)

/-- A sequence of calls to the gated rendering function on one element,
starting from cache slot `slot`: final slot and total underlying writes. -/
def renderCalls {V : Type} (slot : Option (Ref V)) (calls : List (Ref V)) :
    Option (Ref V) × Nat :=
  calls.foldl gateStep (slot, 0)

/-- What an effect resolves to: `undefined`, `null`, or an action.  The
source's `action != null` (loose inequality) is false exactly for the first
two. -/
inductive MsgVal (A : Type) where
  | undef : MsgVal A
  | null : MsgVal A
  | msg : A → MsgVal A
deriving DecidableEq, Repr

/-- `src/mild.js` lines 137-142 (`Store.run`) after the effect has resolved
to `v`: if `v != null`, call `this.send(v)`.  Returns the resulting store
state and the action passed to `send` (`none` when `send` was not called). -/
def runEffect {S A : Type} (upd : S → A → S) (σ : Sched S) (v : MsgVal A) :
    Sched S × Option A :=
  match v with
  | MsgVal.msg a => (send upd σ a, some a)
  | MsgVal.null => (σ, none)
  | MsgVal.undef => (σ, none)

end Mild

namespace Mild

/-- `send` leaves the state slot holding the transaction's state. -/
theorem send_state {S A : Type} (upd : S → A → S) (σ : Sched S) (a : A) :
    (send upd σ a).state = upd σ.state a := by
  simp only [send, scheduleRender]
  split <;> rfl

/-- After any `send` a render is scheduled. -/
theorem send_flag {S A : Type} (upd : S → A → S) (σ : Sched S) (a : A) :
    (send upd σ a).isRenderScheduled = true := by
  simp only [send, scheduleRender]
  split
  · assumption
  · rfl

/-- `send` requests a new animation frame exactly when none is pending. -/
theorem send_queued {S A : Type} (upd : S → A → S) (σ : Sched S) (a : A) :
    (send upd σ a).framesQueued =
      (if σ.isRenderScheduled then σ.framesQueued else σ.framesQueued + 1) := by
  simp only [send, scheduleRender]
  split <;> simp_all

/-- `send` performs no render by itself. -/
theorem send_renders {S A : Type} (upd : S → A → S) (σ : Sched S) (a : A) :
    (send upd σ a).renders = σ.renders := by
  simp only [send, scheduleRender]
  split <;> rfl

/-- Folding `send`s over a store that already has a render scheduled keeps
the flag, the frame queue and the render log unchanged while folding the
update function over the state. -/
theorem foldl_send_scheduled {S A : Type} (upd : S → A → S) :
    ∀ (acts : List A) (σ : Sched S), σ.isRenderScheduled = true →
      (acts.foldl (send upd) σ).isRenderScheduled = true ∧
      (acts.foldl (send upd) σ).framesQueued = σ.framesQueued ∧
      (acts.foldl (send upd) σ).renders = σ.renders ∧
      (acts.foldl (send upd) σ).state = acts.foldl upd σ.state := by
  intro acts
  induction acts with
  | nil => exact fun σ h => ⟨h, rfl, rfl, rfl⟩
  | cons a rest ih =>
    intro σ h
    obtain ⟨f, q, r, st⟩ := ih (send upd σ a) (send_flag upd σ a)
    refine ⟨f, ?_, ?_, ?_⟩
    · rw [List.foldl_cons, q, send_queued, if_pos h]
    · rw [List.foldl_cons, r, send_renders]
    · rw [List.foldl_cons, st, send_state, List.foldl_cons]

/-- Behaviour of one animation-frame firing on a store whose flag is up:
the flag comes down only after the render callback (and any `send`s it
performs) has finished, one queued frame is consumed — the callback's own
`send`s schedule nothing new — and the state at callback time is rendered. -/
theorem fireFrame_props {S A : Type} (upd : S → A → S) (inner : List A)
    (σ : Sched S) (hf : σ.isRenderScheduled = true) :
    (fireFrame upd inner σ).isRenderScheduled = false ∧
    (fireFrame upd inner σ).framesQueued = σ.framesQueued - 1 ∧
    (fireFrame upd inner σ).renders = σ.renders ++ [σ.state] := by
  have hfoldl := foldl_send_scheduled upd inner
    { σ with framesQueued := σ.framesQueued - 1,
             renders := σ.renders ++ [σ.state] }
    (by simpa using hf)
  exact ⟨rfl, hfoldl.2.1, hfoldl.2.2.1⟩

/-- Scheduler invariant: a frame callback is queued iff the
`#isRenderScheduled` flag is up — and then exactly one. -/
def SchedInv {S : Type} (σ : Sched S) : Prop :=
  σ.framesQueued = (if σ.isRenderScheduled then 1 else 0)

theorem schedInv_init {S : Type} (s : S) : SchedInv (Sched.init s) := by
  simp [SchedInv, Sched.init]

theorem schedInv_step {S A : Type} (upd : S → A → S) (σ : Sched S)
    (ev : Event A) (h : SchedInv σ) : SchedInv (step upd σ ev) := by
  cases ev with
  | send a =>
    simp only [step, SchedInv, send_flag, send_queued, if_pos, if_true]
    cases hf : σ.isRenderScheduled with
    | true => rw [SchedInv, hf] at h; simpa [hf] using h
    | false => rw [SchedInv, hf] at h; simp [hf, h]
  | frame inner =>
    simp only [step]
    split
    · exact h
    · rename_i hq
      have hf : σ.isRenderScheduled = true := by
        rw [SchedInv] at h
        cases hf : σ.isRenderScheduled with
        | true => rfl
        | false => rw [hf] at h; simp at h; exact absurd h hq
      rw [SchedInv, hf, if_pos rfl] at h
      obtain ⟨f3, q3, _⟩ := fireFrame_props upd inner σ hf
      simp only [SchedInv]
      rw [q3, f3, h]
      simp

theorem schedInv_runTrace {S A : Type} (upd : S → A → S) (s0 : S)
    (events : List (Event A)) : SchedInv (runTrace upd s0 events) := by
  rw [runTrace]
  have : ∀ (l : List (Event A)) (σ : Sched S), SchedInv σ →
      SchedInv (l.foldl (step upd) σ) := by
    intro l
    induction l with
    | nil => exact fun σ h => h
    | cons e rest ih => exact fun σ h => ih _ (schedInv_step upd σ e h)
  exact this events _ (schedInv_init s0)

end Mild

namespace Mild

/-- C1 (counterexample): with an update function that returns its state
argument unchanged — the identical reference — `Store.send` on an idle
store still requests a scheduled render: the frame queue goes from 0 to 1.
This refutes "if update returns the identical reference, no render is
requested". -/
theorem C1_counterexample :
    (fun (s : Nat) (_ : Unit) => s) (Sched.init 0).state () = (Sched.init 0).state ∧
    (Sched.init (0 : Nat)).framesQueued = 0 ∧
    (send (fun (s : Nat) (_ : Unit) => s) (Sched.init 0) ()).framesQueued = 1 :=
  ⟨rfl, rfl, rfl⟩

/-- C1 (amended): for every message passed to `Store.send`, the current
state is replaced by the state returned by `update` and `#scheduleRender`
is invoked unconditionally — a fresh frame is requested exactly when none
is pending, regardless of whether `update` returned a new or the identical
reference.  (Reference-equality write skipping lives in the render gate
`rendering`, not in `send`.) -/
theorem C1_amended {S A : Type} (upd : S → A → S) (σ : Sched S) (a : A) :
    (send upd σ a).state = upd σ.state a ∧
    (send upd σ a).isRenderScheduled = true ∧
    (send upd σ a).framesQueued =
      (if σ.isRenderScheduled then σ.framesQueued else σ.framesQueued + 1) :=
  ⟨send_state upd σ a, send_flag upd σ a, send_queued upd σ a⟩

/-- C3 (counterexample): start an idle store on state 0 with
`update s _ = s + 1`; `send` schedules a frame; the frame fires and its
render callback itself performs a `send`.  Afterwards no frame is queued
and the flag is down — the request issued from inside the render callback
did NOT schedule a fresh future frame (and the state 2 it produced was
never rendered: the log only holds state 1).  This refutes "…is not
coalesced into the executing callback: it schedules a fresh future frame
in which a render fires". -/
theorem C3_counterexample :
    (runTrace (fun (s : Nat) (_ : Unit) => s + 1) 0
        [Event.send (), Event.frame [()]]).framesQueued = 0 ∧
    (runTrace (fun (s : Nat) (_ : Unit) => s + 1) 0
        [Event.send (), Event.frame [()]]).isRenderScheduled = false ∧
    (runTrace (fun (s : Nat) (_ : Unit) => s + 1) 0
        [Event.send (), Event.frame [()]]).renders = [1] ∧
    (runTrace (fun (s : Nat) (_ : Unit) => s + 1) 0
        [Event.send (), Event.frame [()]]).state = 2 :=
  ⟨rfl, rfl, rfl, rfl⟩

/-- C3 (amended): at most one render callback is in flight per Store at any
time (after any event trace at most one frame is queued), and a render
request issued from inside the currently executing render callback is
coalesced into that callback and dropped — `#isRenderScheduled` is still
`true` during the render and is cleared only after it returns — so after
any frame event zero frames are queued, no matter what the render callback
sent. -/
theorem C3_amended {S A : Type} (upd : S → A → S) (s0 : S)
    (events : List (Event A)) (inner : List A) :
    (runTrace upd s0 events).framesQueued ≤ 1 ∧
    (step upd (runTrace upd s0 events) (Event.frame inner)).framesQueued = 0 := by
  have hinv := schedInv_runTrace upd s0 events
  rw [SchedInv] at hinv
  constructor
  · rw [hinv]
    split <;> omega
  · simp only [step]
    split
    · rename_i hq
      rw [hq]
    · rename_i hq
      have hf : (runTrace upd s0 events).isRenderScheduled = true := by
        cases hfl : (runTrace upd s0 events).isRenderScheduled with
        | true => rfl
        | false => rw [hfl] at hinv; simp at hinv; exact absurd hinv hq
      obtain ⟨_, q3, _⟩ := fireFrame_props upd inner _ hf
      rw [q3, hinv, hf]
      simp

/-- C4: for any nonempty burst of `send` calls in one scheduling window
(starting from an idle store: flag down, no frame queued), exactly one
frame callback ends up queued, no render fires during the window itself,
and when that one frame fires it renders exactly one state: the state
current at callback time, i.e. the fold of all the window's updates —
after which the queue is empty again. -/
theorem C4_frame_coalescing {S A : Type} (upd : S → A → S) (σ : Sched S)
    (acts : List A) (hne : acts ≠ [])
    (hflag : σ.isRenderScheduled = false) (hq : σ.framesQueued = 0) :
    (acts.foldl (send upd) σ).framesQueued = 1 ∧
    (acts.foldl (send upd) σ).renders = σ.renders ∧
    (step upd (acts.foldl (send upd) σ) (Event.frame [])).renders
      = σ.renders ++ [acts.foldl upd σ.state] ∧
    (step upd (acts.foldl (send upd) σ) (Event.frame [])).framesQueued = 0 := by
  cases acts with
  | nil => exact absurd rfl hne
  | cons a rest =>
    obtain ⟨f, q, r, st⟩ := foldl_send_scheduled upd rest (send upd σ a)
      (send_flag upd σ a)
    have hq1 : ((a :: rest).foldl (send upd) σ).framesQueued = 1 := by
      rw [List.foldl_cons, q, send_queued, if_neg (by rw [hflag]; simp), hq]
    have hr1 : ((a :: rest).foldl (send upd) σ).renders = σ.renders := by
      rw [List.foldl_cons, r, send_renders]
    have hs1 : ((a :: rest).foldl (send upd) σ).state = (a :: rest).foldl upd σ.state := by
      rw [List.foldl_cons, st, send_state, List.foldl_cons]
    refine ⟨hq1, hr1, ?_, ?_⟩
    · simp only [step, hq1]
      rw [if_neg (by simp)]
      obtain ⟨_, _, rr⟩ := fireFrame_props upd []
        ((a :: rest).foldl (send upd) σ) (by rw [List.foldl_cons]; exact f)
      rw [rr, hr1, hs1]
    · simp only [step, hq1]
      rw [if_neg (by simp)]
      obtain ⟨_, qq, _⟩ := fireFrame_props upd []
        ((a :: rest).foldl (send upd) σ) (by rw [List.foldl_cons]; exact f)
      rw [qq, hq1]

/-- C4 (witness): two `send`s on a fresh store with `update s _ = s + 1`
queue exactly one frame, render nothing until it fires, and the single
render it causes shows state 2. -/
theorem C4_witness :
    ([(), ()].foldl (send (fun (s : Nat) (_ : Unit) => s + 1))
       (Sched.init 0)).framesQueued = 1 ∧
    ([(), ()].foldl (send (fun (s : Nat) (_ : Unit) => s + 1))
       (Sched.init 0)).renders = (Sched.init (0 : Nat)).renders ∧
    (step (fun (s : Nat) (_ : Unit) => s + 1)
        ([(), ()].foldl (send (fun (s : Nat) (_ : Unit) => s + 1)) (Sched.init 0))
        (Event.frame [])).renders
      = (Sched.init (0 : Nat)).renders
          ++ [[(), ()].foldl (fun (s : Nat) (_ : Unit) => s + 1) (Sched.init 0).state] ∧
    (step (fun (s : Nat) (_ : Unit) => s + 1)
        ([(), ()].foldl (send (fun (s : Nat) (_ : Unit) => s + 1)) (Sched.init 0))
        (Event.frame [])).framesQueued = 0 :=
  C4_frame_coalescing (fun (s : Nat) (_ : Unit) => s + 1) (Sched.init 0)
    [(), ()] (by decide) rfl rfl

/-- C9: once an effect awaited by `Store.run` has resolved to `v`, `send`
is invoked exactly when `v` is a non-empty message (neither `null` nor
`undefined`), and then with exactly that message; a `null`/`undefined`
result leaves the store untouched and sends nothing. -/
theorem C9_effect_runner {S A : Type} (upd : S → A → S) (σ : Sched S)
    (v : MsgVal A) :
    ((runEffect upd σ v).2.isSome ↔ ∃ a, v = MsgVal.msg a) ∧
    (∀ a, v = MsgVal.msg a → runEffect upd σ v = (send upd σ a, some a)) ∧
    ((v = MsgVal.null ∨ v = MsgVal.undef) → runEffect upd σ v = (σ, none)) := by
  cases v <;> simp [runEffect]

/-- C9 (witness): an effect resolving to the message 5 sends 5; an effect
resolving to null sends nothing and leaves the store unchanged. -/
theorem C9_witness :
    runEffect (fun (s : Nat) (n : Nat) => s + n) (Sched.init 0) (MsgVal.msg 5)
      = (send (fun (s : Nat) (n : Nat) => s + n) (Sched.init 0) 5, some 5) ∧
    runEffect (fun (s : Nat) (n : Nat) => s + n) (Sched.init 0)
      (MsgVal.null : MsgVal Nat) = (Sched.init 0, none) :=
  ⟨(C9_effect_runner (fun s n => s + n) (Sched.init 0) (MsgVal.msg 5)).2.1 5 rfl,
   (C9_effect_runner (fun s n => s + n) (Sched.init 0) MsgVal.null).2.2 (Or.inl rfl)⟩

end Mild

namespace Mild

/-- Further gated calls with a state already cached perform no writes. -/
theorem gate_replicate {V : Type} (s : Ref V) :
    ∀ (m : Nat) (k : Nat),
      List.foldl gateStep ((some s : Option (Ref V)), k) (List.replicate m s)
        = (some s, k) := by
  intro m
  induction m with
  | zero => intro k; rfl
  | succ n ih =>
    intro k
    rw [List.replicate_succ, List.foldl_cons]
    have hstep : gateStep ((some s : Option (Ref V)), k) s = (some s, k) := by
      simp [gateStep, renderWhenChanged, sameRef]
    rw [hstep]
    exact ih k

/-- C7: for every rendering function wrapped by `rendering`, calling the
gated function `n ≥ 1` times on a fresh element with the identical state
reference performs the underlying write exactly once; one further call with
a state of different reference — its structural value `t.val` is
unconstrained, so in particular it may equal `s.val` — performs the write
again. -/
theorem C7_render_gate {V : Type} (s t : Ref V) (n : Nat) (hn : 1 ≤ n)
    (ht : t.addr ≠ s.addr) :
    (renderCalls none (List.replicate n s)).2 = 1 ∧
    (renderCalls none (List.replicate n s ++ [t])).2 = 2 := by
  obtain ⟨m, rfl⟩ : ∃ m, n = m + 1 := ⟨n - 1, by omega⟩
  have hfirst : gateStep ((none : Option (Ref V)), 0) s = (some s, 1) := by
    simp [gateStep, renderWhenChanged, sameRef]
  have h1 : renderCalls (none : Option (Ref V)) (List.replicate (m + 1) s)
      = (some s, 1) := by
    rw [renderCalls, List.replicate_succ, List.foldl_cons, hfirst]
    exact gate_replicate s m 1
  refine ⟨by rw [h1], ?_⟩
  rw [renderCalls, List.foldl_append, ← renderCalls, h1]
  have hne : ¬ (s.addr == t.addr) = true := by
    simp only [beq_iff_eq]
    exact fun h => ht h.symm
  simp [gateStep, renderWhenChanged, sameRef, hne]

/-- C7 (witness): three calls with the same reference `⟨0, 7⟩` write once;
a fourth call with `⟨1, 7⟩` — a different reference that is structurally
equal (same `val` 7) — writes again. -/
theorem C7_witness :
    (renderCalls none (List.replicate 3 (⟨0, 7⟩ : Ref Nat))).2 = 1 ∧
    (renderCalls none
      (List.replicate 3 (⟨0, 7⟩ : Ref Nat) ++ [(⟨1, 7⟩ : Ref Nat)])).2 = 2 :=
  C7_render_gate (⟨0, 7⟩ : Ref Nat) ⟨1, 7⟩ 3 (by decide) (by decide)

/-- An element found by indexing is a member. -/
theorem memOfGetElem {α : Type} :
    ∀ {l : List α} {i : Nat} {a : α}, l[i]? = some a → a ∈ l := by
  intro l
  induction l with
  | nil => intro i a h; simp at h
  | cons c rest ih =>
    intro i a h
    cases i with
    | zero =>
      simp only [List.getElem?_cons_zero, Option.some.injEq] at h
      exact h ▸ List.mem_cons_self c rest
    | succ j =>
      rw [List.getElem?_cons_succ] at h
      exact List.mem_cons_of_mem c (ih h)

/-- Removing one element keeps every other element. -/
theorem mem_eraseFirst_of_ne {a e : Elem} :
    ∀ {l : List Elem}, a ≠ e → a ∈ l → a ∈ eraseFirst l e := by
  intro l
  induction l with
  | nil => intro _ h; cases h
  | cons c rest ih =>
    intro hne hmem
    rw [eraseFirst]
    split
    · rename_i hce
      cases List.mem_cons.mp hmem with
      | inl h => exact absurd (h.trans hce) hne
      | inr h => exact h
    · cases List.mem_cons.mp hmem with
      | inl h => exact h ▸ List.mem_cons_self ..
      | inr h => exact List.mem_cons_of_mem _ (ih hne h)

/-- `insertBeforeAux` splits the list at the first occurrence of the anchor
and inserts the element right before it. -/
theorem insertBeforeAux_split (e : Elem) :
    ∀ {l : List Elem} {a : Elem}, a ∈ l →
      ∃ l₁ l₂, l = l₁ ++ a :: l₂ ∧ a ∉ l₁ ∧
        insertBeforeAux e a l = l₁ ++ e :: a :: l₂ := by
  intro l
  induction l with
  | nil => intro a h; cases h
  | cons c rest ih =>
    intro a hmem
    by_cases hc : c = a
    · subst hc
      exact ⟨[], rest, rfl, by simp, by simp [insertBeforeAux]⟩
    · have hmem' : a ∈ rest := by
        cases List.mem_cons.mp hmem with
        | inl h => exact absurd h.symm hc
        | inr h => exact h
      obtain ⟨l₁, l₂, heq, hna, hres⟩ := ih hmem'
      refine ⟨c :: l₁, l₂, by rw [List.cons_append, heq], ?_, ?_⟩
      · intro hmem''
        cases List.mem_cons.mp hmem'' with
        | inl h => exact hc h.symm
        | inr h => exact hna h
      · rw [insertBeforeAux, if_neg hc, hres, List.cons_append]

/-- C8: for every call `insertElementAt(parent, element, index)` — if the
child of `parent` occupying `index` is already `element`, the call performs
no DOM mutation at all (children unchanged, empty mutation log); otherwise
it moves `element`: it is detached from its old position and inserted
immediately before the element `a` that occupied the index, in one
`insertBefore` call. -/
theorem C8_insert_position (children : List Elem) (e : Elem) (i : Nat) :
    (children[i]? = some e → insertElementAt children e i = (children, [])) ∧
    (∀ a, children[i]? = some a → a ≠ e →
      ∃ l₁ l₂, eraseFirst children e = l₁ ++ a :: l₂ ∧ a ∉ l₁ ∧
        insertElementAt children e i =
          (l₁ ++ e :: a :: l₂, [DomOp.insert e.eid (some a.eid)])) := by
  constructor
  · intro h
    simp [insertElementAt, h]
  · intro a h hne
    have hmem : a ∈ children := memOfGetElem h
    have hmem' : a ∈ eraseFirst children e := mem_eraseFirst_of_ne hne hmem
    obtain ⟨l₁, l₂, heq, hna, hres⟩ := insertBeforeAux_split e hmem'
    refine ⟨l₁, l₂, heq, hna, ?_⟩
    simp only [insertElementAt, h]
    rw [if_neg hne, insertBeforeDom, hres]

/-- C8 (witness): with one child `⟨0, undef⟩` at index 0, inserting that
same element at 0 mutates nothing; inserting the distinct element
`⟨1, undef⟩` at 0 performs exactly one `insertBefore`, placing it before
the occupant. -/
theorem C8_witness :
    insertElementAt [⟨0, JsVal.undef⟩] ⟨0, JsVal.undef⟩ 0
      = ([⟨0, JsVal.undef⟩], []) ∧
    insertElementAt [⟨0, JsVal.undef⟩] ⟨1, JsVal.undef⟩ 0
      = ([⟨1, JsVal.undef⟩, ⟨0, JsVal.undef⟩], [DomOp.insert 1 (some 0)]) := by
  constructor
  · exact (C8_insert_position [⟨0, JsVal.undef⟩] ⟨0, JsVal.undef⟩ 0).1 rfl
  · obtain ⟨l₁, l₂, heq, hna, hres⟩ :=
      (C8_insert_position [⟨0, JsVal.undef⟩] ⟨1, JsVal.undef⟩ 0).2
        ⟨0, JsVal.undef⟩ rfl (by decide)
    have h0 : ([⟨0, JsVal.undef⟩] : List Elem) = l₁ ++ ⟨0, JsVal.undef⟩ :: l₂ := by
      rw [← heq]; rfl
    cases l₁ with
    | nil =>
      cases l₂ with
      | nil => simpa using hres
      | cons x xs => simp at h0
    | cons y ys => simp at h0

/-- Indexing past the end yields nothing. -/
theorem getElemQ_none_of_len_le {α : Type} :
    ∀ {l : List α} {i : Nat}, l.length ≤ i → l[i]? = none := by
  intro l
  induction l with
  | nil => intro i _; simp
  | cons c rest ih =>
    intro i h
    cases i with
    | zero => simp at h
    | succ j =>
      rw [List.getElem?_cons_succ]
      exact ih (by simpa using h)

/-- C10: when `index` is at least the number of children (in particular on
an empty parent), `insertElementAt` appends the element as the last child
(detaching it first if it was already a child), via one `insertBefore` with
a null anchor. -/
theorem C10_insert_out_of_range (children : List Elem) (e : Elem) (i : Nat)
    (h : children.length ≤ i) :
    insertElementAt children e i
      = (eraseFirst children e ++ [e], [DomOp.insert e.eid none]) := by
  have hn : children[i]? = none := getElemQ_none_of_len_le h
  simp [insertElementAt, hn, insertBeforeDom]

/-- C10 (witness): inserting `⟨0, undef⟩` at index 0 of an empty parent
appends it as the (only and last) child. -/
theorem C10_witness :
    insertElementAt [] ⟨0, JsVal.undef⟩ 0
      = ([⟨0, JsVal.undef⟩], [DomOp.insert 0 none]) :=
  C10_insert_out_of_range [] ⟨0, JsVal.undef⟩ 0 (by decide)

/-- C2 (code behaviour at the failing input): a state `{}` without an `id`
property derives the key `undefined`, which the guard `id(state) === null`
does NOT catch.  Called on a parent with one child keyed `"a"`, `list` does
not raise: it removes that child and inserts a fresh child keyed
`undefined` — contradicting "raises immediately … the parent's children are
exactly as they were before the call". -/
theorem C2_missing_id_not_caught :
    getId ⟨JsVal.undef⟩ = JsVal.undef ∧
    listRun getId [⟨0, JsVal.str "a"⟩] [⟨JsVal.undef⟩] 1
      = Except.ok ⟨[⟨1, JsVal.undef⟩],
          [DomOp.remove 0, DomOp.insert 1 none], 2⟩ :=
  ⟨rfl, rfl⟩

/-- C6: render `[A(k1), B(k2), C(k3)]` into an empty parent (elements get
identities 0, 1, 2), then reconcile to `[A(k1), D(k4), C(k3)]`.  The second
call performs exactly one removal (element 1, B's) and exactly one
insertion of exactly one freshly created element (identity 3, D's; the
fresh-identity counter moves 3 → 4), and the elements for k1 and k3 are the
same objects by reference (`⟨0, k1⟩`, `⟨2, k3⟩`) before and after, appearing
in no mutation at all. -/
theorem C6_keyed_stability :
    listRun getId [] [⟨JsVal.str "k1"⟩, ⟨JsVal.str "k2"⟩, ⟨JsVal.str "k3"⟩] 0
      = Except.ok ⟨[⟨0, JsVal.str "k1"⟩, ⟨1, JsVal.str "k2"⟩, ⟨2, JsVal.str "k3"⟩],
          [DomOp.insert 0 none, DomOp.insert 1 none, DomOp.insert 2 none], 3⟩ ∧
    listRun getId [⟨0, JsVal.str "k1"⟩, ⟨1, JsVal.str "k2"⟩, ⟨2, JsVal.str "k3"⟩]
        [⟨JsVal.str "k1"⟩, ⟨JsVal.str "k4"⟩, ⟨JsVal.str "k3"⟩] 3
      = Except.ok ⟨[⟨0, JsVal.str "k1"⟩, ⟨3, JsVal.str "k4"⟩, ⟨2, JsVal.str "k3"⟩],
          [DomOp.remove 1, DomOp.insert 3 (some 2)], 4⟩ :=
  ⟨rfl, rfl⟩

end Mild

namespace Mild

/-- `mapGet` hits iff the key occurs in the association list. -/
theorem mapGet_isSome_iff {α : Type} :
    ∀ (m : List (JsVal × α)) (k : JsVal),
      (mapGet m k).isSome = true ↔ k ∈ m.map Prod.fst := by
  intro m
  induction m with
  | nil => intro k; simp [mapGet]
  | cons p rest ih =>
    intro k
    rw [mapGet]
    by_cases hp : p.1 = k
    · simp [hp]
    · rw [if_neg hp]
      simp only [List.map_cons, List.mem_cons]
      rw [ih]
      constructor
      · exact Or.inr
      · intro h
        cases h with
        | inl h => exact absurd h.symm hp
        | inr h => exact h

/-- Any entry `mapGet` returns is an entry of the association list. -/
theorem mapGet_mem {α : Type} :
    ∀ {m : List (JsVal × α)} {k : JsVal} {v : α},
      mapGet m k = some v → (k, v) ∈ m := by
  intro m
  induction m with
  | nil => intro k v h; simp [mapGet] at h
  | cons p rest ih =>
    intro k v h
    rw [mapGet] at h
    split at h
    · rename_i hp
      cases h
      exact hp ▸ List.mem_cons_self ..
    · exact List.mem_cons_of_mem _ (ih h)

/-- Folding prepends collects the mapped list in reverse. -/
theorem foldl_prepend {α β : Type} (f : α → β) :
    ∀ (l : List α) (acc : List β),
      l.foldl (fun m c => f c :: m) acc = (l.map f).reverse ++ acc := by
  intro l
  induction l with
  | nil => intro acc; simp
  | cons c rest ih =>
    intro acc
    rw [List.foldl_cons, ih]
    simp

/-- `buildStateMap` succeeds when no state has a `null` id, and collects
all (id, state) pairs. -/
theorem buildStateMap_ok {S : Type} (idf : S → JsVal) :
    ∀ (states : List S) (acc : List (JsVal × S)),
      (∀ s ∈ states, idf s ≠ JsVal.null) →
      buildStateMap idf states acc =
        Except.ok ((states.map (fun s => (idf s, s))).reverse ++ acc) := by
  intro states
  induction states with
  | nil => intro acc _; simp [buildStateMap]
  | cons s rest ih =>
    intro acc h
    rw [buildStateMap, if_neg (h s (List.mem_cons_self ..)),
      ih _ (fun x hx => h x (List.mem_cons_of_mem _ hx))]
    simp

/-- The state map produced by a successful `buildStateMap` contains
precisely the ids of `states`. -/
theorem stateMap_has {S : Type} (idf : S → JsVal) (states : List S)
    (h : ∀ s ∈ states, idf s ≠ JsVal.null) :
    ∃ m, buildStateMap idf states [] = Except.ok m ∧
      ∀ k, mapHas m k = true ↔ k ∈ states.map idf := by
  refine ⟨_, buildStateMap_ok idf states [] h, ?_⟩
  intro k
  rw [mapHas, mapGet_isSome_iff]
  simp [Function.comp]

/-- The child map is the reversed association of each child's key. -/
theorem buildChildMap_eq (children : List Elem) :
    buildChildMap children = (children.map (fun c => (c.key, c))).reverse := by
  rw [buildChildMap, foldl_prepend]
  simp

/-- A hit in the child map is a current child carrying that key. -/
theorem childMap_get_some {parent : List Elem} {k : JsVal} {c : Elem}
    (h : mapGet (buildChildMap parent) k = some c) :
    c ∈ parent ∧ c.key = k := by
  have hmem := mapGet_mem h
  rw [buildChildMap_eq, List.mem_reverse, List.mem_map] at hmem
  obtain ⟨c', hc', heq⟩ := hmem
  have h1 : c'.key = k := congrArg Prod.fst heq
  have h2 : c' = c := congrArg Prod.snd heq
  exact ⟨h2 ▸ hc', h2 ▸ h1⟩

/-- A miss in the child map means no current child carries that key. -/
theorem childMap_get_none {parent : List Elem} {k : JsVal}
    (h : mapGet (buildChildMap parent) k = none) :
    k ∉ parent.map Elem.key := by
  intro hk
  have : (mapGet (buildChildMap parent) k).isSome = true := by
    rw [mapGet_isSome_iff, buildChildMap_eq]
    simp only [List.map_reverse, List.mem_reverse, List.map_map]
    simpa [Function.comp] using hk
  rw [h] at this
  simp at this

/-- The children component of `removeAll` is a fold of removals. -/
theorem removeAll_children :
    ∀ (rs cs : List Elem), (removeAll cs rs).1 = rs.foldl eraseFirst cs := by
  intro rs
  induction rs with
  | nil => intro cs; rfl
  | cons r rest ih => intro cs; rw [removeAll, List.foldl_cons]; exact ih _

/-- Removals of elements other than the head slide past it. -/
theorem foldl_eraseFirst_cons (c : Elem) :
    ∀ (rs cs : List Elem), c ∉ rs →
      rs.foldl eraseFirst (c :: cs) = c :: rs.foldl eraseFirst cs := by
  intro rs
  induction rs with
  | nil => intro cs _; rfl
  | cons r rest ih =>
    intro cs h
    have hcr : c ≠ r := fun hh => h (hh ▸ List.mem_cons_self ..)
    rw [List.foldl_cons, List.foldl_cons, eraseFirst, if_neg hcr]
    exact ih _ (fun hh => h (List.mem_cons_of_mem _ hh))

/-- Removing from a duplicate-free list exactly the elements failing a test
leaves exactly the elements passing it. -/
theorem removeFilter (p : Elem → Bool) :
    ∀ (l : List Elem), l.Nodup →
      (l.filter (fun c => !(p c))).foldl eraseFirst l = l.filter p := by
  intro l
  induction l with
  | nil => intro _; rfl
  | cons c rest ih =>
    intro hnd
    obtain ⟨hc, hrest⟩ := List.nodup_cons.mp hnd
    cases hp : p c with
    | true =>
      rw [List.filter_cons_of_neg (by simp [hp]),
        foldl_eraseFirst_cons c _ _
          (fun hh => hc (List.mem_of_mem_filter hh)),
        ih hrest, List.filter_cons_of_pos hp]
    | false =>
      rw [List.filter_cons_of_pos (by simp [hp]), List.foldl_cons,
        eraseFirst, if_pos rfl, ih hrest, List.filter_cons_of_neg (by simp [hp])]

end Mild

namespace Mild

/-- Removing an absent element changes nothing. -/
theorem eraseFirst_of_not_mem :
    ∀ {l : List Elem} {x : Elem}, x ∉ l → eraseFirst l x = l := by
  intro l
  induction l with
  | nil => intro x _; rfl
  | cons c rest ih =>
    intro x h
    have hcx : ¬ c = x := fun hh => h (hh ▸ List.mem_cons_self ..)
    rw [eraseFirst, if_neg hcx, ih (fun hh => h (List.mem_cons_of_mem _ hh))]

/-- Removal passes over a prefix not containing the element. -/
theorem eraseFirst_append_of_not_mem :
    ∀ {l₁ : List Elem} (l₂ : List Elem) {x : Elem}, x ∉ l₁ →
      eraseFirst (l₁ ++ l₂) x = l₁ ++ eraseFirst l₂ x := by
  intro l₁
  induction l₁ with
  | nil => intro l₂ x _; rfl
  | cons c rest ih =>
    intro l₂ x h
    have hcx : ¬ c = x := fun hh => h (hh ▸ List.mem_cons_self ..)
    rw [List.cons_append, eraseFirst, if_neg hcx,
      ih l₂ (fun hh => h (List.mem_cons_of_mem _ hh)), List.cons_append]

/-- Inserting before an anchor that heads the suffix, past a prefix free of
the anchor. -/
theorem insertBeforeAux_append_of_not_mem (e : Elem) :
    ∀ {l₁ : List Elem} (l₂ : List Elem) {a : Elem}, a ∉ l₁ →
      insertBeforeAux e a (l₁ ++ a :: l₂) = l₁ ++ e :: a :: l₂ := by
  intro l₁
  induction l₁ with
  | nil => intro l₂ a _; rw [List.nil_append, insertBeforeAux, if_pos rfl]; rfl
  | cons c rest ih =>
    intro l₂ a h
    have hca : ¬ c = a := fun hh => h (hh ▸ List.mem_cons_self ..)
    rw [List.cons_append, insertBeforeAux, if_neg hca,
      ih l₂ (fun hh => h (List.mem_cons_of_mem _ hh)), List.cons_append]

/-- Indexing an append at the length of the prefix reads the suffix head. -/
theorem getElemQ_append_length {α : Type} :
    ∀ (l₁ l₂ : List α), (l₁ ++ l₂)[l₁.length]? = l₂[0]? := by
  intro l₁
  induction l₁ with
  | nil => intro l₂; rfl
  | cons c rest ih =>
    intro l₂
    rw [List.cons_append, List.length_cons, List.getElem?_cons_succ]
    exact ih l₂

/-- An element whose key is absent from the keys of a list is absent. -/
theorem not_mem_of_key_not_mem {l : List Elem} {c : Elem}
    (h : c.key ∉ l.map Elem.key) : c ∉ l :=
  fun hc => h (List.mem_map_of_mem _ hc)

/-- Duplicate-free keys across an append separate the two sides. -/
theorem disjoint_of_key_nodup {l₁ l₂ : List Elem}
    (h : ((l₁ ++ l₂).map Elem.key).Nodup) :
    ∀ b ∈ l₂, b ∉ l₁ := by
  intro b hb2 hb1
  rw [List.map_append] at h
  exact (List.nodup_append.mp h).2.2 (List.mem_map_of_mem _ hb1)
    (List.mem_map_of_mem _ hb2)

/-- Pulling the matched element of the pending block to the front is a
permutation. -/
theorem perm_extract (placed p₁ p₂ : List Elem) (c : Elem) :
    (placed ++ (p₁ ++ c :: p₂)).Perm (c :: (placed ++ (p₁ ++ p₂))) := by
  have h1 : placed ++ (p₁ ++ c :: p₂) = (placed ++ p₁) ++ c :: p₂ := by
    rw [List.append_assoc]
  have h2 : c :: (placed ++ (p₁ ++ p₂)) = c :: ((placed ++ p₁) ++ p₂) := by
    rw [List.append_assoc]
  rw [h1, h2]
  exact List.perm_middle

/-- Positioning the existing element for the current state: it ends up
right after the already-placed prefix, which is undisturbed, as is the rest
of the pending block. -/
theorem insertAt_existing (placed p₁ p₂ : List Elem) (c : Elem)
    (hcp : c ∉ placed) (hc1 : c ∉ p₁) (hb : ∀ b ∈ p₁, b ∉ placed) :
    ∃ delta, insertElementAt (placed ++ (p₁ ++ c :: p₂)) c placed.length
      = (placed ++ c :: (p₁ ++ p₂), delta) := by
  cases p₁ with
  | nil =>
    have hocc : (placed ++ ([] ++ c :: p₂))[placed.length]? = some c := by
      rw [List.nil_append, getElemQ_append_length]; simp
    refine ⟨[], ?_⟩
    simp only [insertElementAt, hocc, if_pos rfl]
    simp
  | cons b p₁' =>
    have hbc : ¬ b = c := fun hh => hc1 (hh ▸ List.mem_cons_self ..)
    have hocc : (placed ++ ((b :: p₁') ++ c :: p₂))[placed.length]? = some b := by
      rw [getElemQ_append_length]; simp
    refine ⟨[DomOp.insert c.eid (some b.eid)], ?_⟩
    simp only [insertElementAt, hocc, if_neg hbc, insertBeforeDom]
    rw [eraseFirst_append_of_not_mem _ hcp, eraseFirst_append_of_not_mem _ hc1,
      eraseFirst, if_pos rfl]
    have hbp : b ∉ placed := hb b (List.mem_cons_self ..)
    have hshape : placed ++ ((b :: p₁') ++ p₂) = placed ++ b :: (p₁' ++ p₂) := rfl
    rw [hshape, insertBeforeAux_append_of_not_mem c _ hbp]
    simp

/-- Positioning a freshly created element: it is appended right after the
placed prefix, before the whole pending block. -/
theorem insertAt_fresh (placed pending : List Elem) (e : Elem)
    (he : e ∉ placed ++ pending) (hb : ∀ b ∈ pending, b ∉ placed) :
    ∃ delta, insertElementAt (placed ++ pending) e placed.length
      = (placed ++ e :: pending, delta) := by
  cases pending with
  | nil =>
    have hocc : (placed ++ ([] : List Elem))[placed.length]? = none := by
      rw [getElemQ_append_length]; rfl
    refine ⟨[DomOp.insert e.eid none], ?_⟩
    simp only [insertElementAt, hocc, insertBeforeDom]
    rw [eraseFirst_of_not_mem he]
    simp
  | cons b t =>
    have hbe : ¬ b = e := fun hh =>
      he (hh ▸ List.mem_append_right placed (List.mem_cons_self ..))
    have hocc : (placed ++ b :: t)[placed.length]? = some b := by
      rw [getElemQ_append_length]; simp
    refine ⟨[DomOp.insert e.eid (some b.eid)], ?_⟩
    simp only [insertElementAt, hocc, if_neg hbe, insertBeforeDom]
    rw [eraseFirst_of_not_mem he, insertBeforeAux_append_of_not_mem e _
      (hb b (List.mem_cons_self ..))]

end Mild

namespace Mild

/-- Correctness of the add/re-order pass: processing `states` against a
child list `placed ++ pending` — `placed` the elements already positioned
for earlier states, `pending` the surviving children still awaiting their
state — appends, after `placed`, exactly one element per state, in state
order, carrying the states' keys. -/
theorem listLoop_spec {S : Type} (idf : S → JsVal) (childMap : List (JsVal × Elem)) :
    ∀ (states : List S) (placed pending : List Elem) (ops : List DomOp) (nid : Nat),
      (states.map idf).Nodup →
      (((placed ++ pending).map Elem.key).Nodup) →
      (∀ s ∈ states, idf s ∉ placed.map Elem.key) →
      (∀ c ∈ pending, c.key ∈ states.map idf) →
      (∀ s ∈ states, ∀ c, mapGet childMap (idf s) = some c →
        c ∈ pending ∧ c.key = idf s) →
      (∀ s ∈ states, mapGet childMap (idf s) = none →
        idf s ∉ pending.map Elem.key) →
      ∃ tail ops' nid',
        listLoop idf childMap states placed.length ⟨placed ++ pending, ops, nid⟩
          = ⟨placed ++ tail, ops', nid'⟩ ∧
        tail.map Elem.key = states.map idf := by
  intro states
  induction states with
  | nil =>
    intro placed pending ops nid _ _ _ hpend _ _
    have hpe : pending = [] := by
      cases pending with
      | nil => rfl
      | cons c t =>
        have := hpend c (List.mem_cons_self ..)
        simp at this
    subst hpe
    exact ⟨[], ops, nid, by simp [listLoop], rfl⟩
  | cons s rest ih =>
    intro placed pending ops nid hndS hndK hplaced hpend hsome hnone
    have hsmem : s ∈ s :: rest := List.mem_cons_self ..
    have hndS' : (rest.map idf).Nodup := by
      rw [List.map_cons] at hndS
      exact (List.nodup_cons.mp hndS).2
    have hkS : idf s ∉ rest.map idf := by
      rw [List.map_cons] at hndS
      exact (List.nodup_cons.mp hndS).1
    cases hget : mapGet childMap (idf s) with
    | some c =>
      obtain ⟨hcpend, hckey⟩ := hsome s hsmem c hget
      obtain ⟨p₁, p₂, rfl⟩ := List.append_of_mem hcpend
      have hperm := (perm_extract placed p₁ p₂ c).map Elem.key
      have hndK' : ((c :: (placed ++ (p₁ ++ p₂))).map Elem.key).Nodup :=
        hperm.nodup_iff.mp hndK
      have htmp := hndK'
      rw [List.map_cons, List.nodup_cons] at htmp
      obtain ⟨hckNot, _⟩ := htmp
      have hcp : c ∉ placed := by
        apply not_mem_of_key_not_mem
        intro hh
        exact hckNot (by rw [List.map_append]; exact List.mem_append_left _ hh)
      have hc1 : c ∉ p₁ := by
        apply not_mem_of_key_not_mem
        intro hh
        apply hckNot
        rw [List.map_append]
        refine List.mem_append_right _ ?_
        rw [List.map_append]
        exact List.mem_append_left _ hh
      have hdisj : ∀ b ∈ p₁ ++ c :: p₂, b ∉ placed := disjoint_of_key_nodup hndK
      have hb : ∀ b ∈ p₁, b ∉ placed :=
        fun b hbm => hdisj b (List.mem_append_left _ hbm)
      obtain ⟨delta, hins⟩ := insertAt_existing placed p₁ p₂ c hcp hc1 hb
      have hins1 : (insertElementAt (placed ++ (p₁ ++ c :: p₂)) c placed.length).1
          = (placed ++ [c]) ++ (p₁ ++ p₂) := by
        rw [hins]
        simp
      have hins2 : (insertElementAt (placed ++ (p₁ ++ c :: p₂)) c placed.length).2
          = delta := by
        rw [hins]
      have H2 : (((placed ++ [c]) ++ (p₁ ++ p₂)).map Elem.key).Nodup := by
        have hp2 := (perm_extract placed [] (p₁ ++ p₂) c).map Elem.key
        rw [List.nil_append, List.nil_append] at hp2
        have hform : (placed ++ [c]) ++ (p₁ ++ p₂) = placed ++ c :: (p₁ ++ p₂) := by
          simp
        rw [hform]
        exact hp2.nodup_iff.mpr hndK'
      have H3 : ∀ s' ∈ rest, idf s' ∉ (placed ++ [c]).map Elem.key := by
        intro s' hs' hmem
        rw [List.map_append] at hmem
        cases List.mem_append.mp hmem with
        | inl h => exact hplaced s' (List.mem_cons_of_mem _ hs') h
        | inr h =>
          have heq : idf s' = c.key := by simpa using h
          rw [hckey] at heq
          apply hkS
          rw [← heq]
          exact List.mem_map_of_mem idf hs'
      have H4 : ∀ c' ∈ p₁ ++ p₂, c'.key ∈ rest.map idf := by
        intro c' hc'
        have hc'p : c' ∈ p₁ ++ c :: p₂ := by
          cases List.mem_append.mp hc' with
          | inl h => exact List.mem_append_left _ h
          | inr h => exact List.mem_append_right _ (List.mem_cons_of_mem _ h)
        have hkey := hpend c' hc'p
        rw [List.map_cons] at hkey
        cases List.mem_cons.mp hkey with
        | inr h => exact h
        | inl h =>
          exfalso
          apply hckNot
          rw [List.map_append]
          refine List.mem_append_right _ ?_
          rw [hckey, ← h]
          exact List.mem_map_of_mem _ hc'
      have H5 : ∀ s' ∈ rest, ∀ c', mapGet childMap (idf s') = some c' →
          c' ∈ p₁ ++ p₂ ∧ c'.key = idf s' := by
        intro s' hs' c' hget'
        obtain ⟨hmem, hkey'⟩ := hsome s' (List.mem_cons_of_mem _ hs') c' hget'
        refine ⟨?_, hkey'⟩
        have hne : c' ≠ c := by
          intro hh
          rw [hh, hckey] at hkey'
          apply hkS
          rw [hkey']
          exact List.mem_map_of_mem idf hs'
        cases List.mem_append.mp hmem with
        | inl h => exact List.mem_append_left _ h
        | inr h =>
          cases List.mem_cons.mp h with
          | inl h' => exact absurd h' hne
          | inr h' => exact List.mem_append_right _ h'
      have H6 : ∀ s' ∈ rest, mapGet childMap (idf s') = none →
          idf s' ∉ (p₁ ++ p₂).map Elem.key := by
        intro s' hs' hget' hmem
        apply hnone s' (List.mem_cons_of_mem _ hs') hget'
        rw [List.map_append] at hmem ⊢
        cases List.mem_append.mp hmem with
        | inl h => exact List.mem_append_left _ h
        | inr h =>
          refine List.mem_append_right _ ?_
          rw [List.map_cons]
          exact List.mem_cons_of_mem _ h
      obtain ⟨tail, ops', nid', heq, hkeys⟩ :=
        ih (placed ++ [c]) (p₁ ++ p₂) (ops ++ delta) nid hndS' H2 H3 H4 H5 H6
      refine ⟨c :: tail, ops', nid', ?_, ?_⟩
      · simp only [listLoop, hget, hins1, hins2]
        rw [show placed.length + 1 = (placed ++ [c]).length by simp]
        rw [heq]
        simp
      · rw [List.map_cons, hckey, hkeys, List.map_cons]
    | none =>
      have hknot : idf s ∉ pending.map Elem.key := hnone s hsmem hget
      have hkplaced : idf s ∉ placed.map Elem.key := hplaced s hsmem
      have henot : (⟨nid, idf s⟩ : Elem) ∉ placed ++ pending := by
        apply not_mem_of_key_not_mem
        intro hmem
        rw [List.map_append] at hmem
        cases List.mem_append.mp hmem with
        | inl h => exact hkplaced h
        | inr h => exact hknot h
      have hb : ∀ b ∈ pending, b ∉ placed := disjoint_of_key_nodup hndK
      obtain ⟨delta, hins⟩ := insertAt_fresh placed pending ⟨nid, idf s⟩ henot hb
      have hins1 : (insertElementAt (placed ++ pending) ⟨nid, idf s⟩ placed.length).1
          = (placed ++ [(⟨nid, idf s⟩ : Elem)]) ++ pending := by
        rw [hins]
        simp
      have hins2 : (insertElementAt (placed ++ pending) ⟨nid, idf s⟩ placed.length).2
          = delta := by
        rw [hins]
      have H2 : (((placed ++ [(⟨nid, idf s⟩ : Elem)]) ++ pending).map Elem.key).Nodup := by
        have hp2 := (perm_extract placed [] pending ⟨nid, idf s⟩).map Elem.key
        rw [List.nil_append, List.nil_append] at hp2
        have hform : (placed ++ [(⟨nid, idf s⟩ : Elem)]) ++ pending
            = placed ++ (⟨nid, idf s⟩ : Elem) :: pending := by
          simp
        rw [hform]
        apply hp2.nodup_iff.mpr
        rw [List.map_cons, List.nodup_cons]
        refine ⟨?_, hndK⟩
        intro hmem
        rw [List.map_append] at hmem
        cases List.mem_append.mp hmem with
        | inl h => exact hkplaced h
        | inr h => exact hknot h
      have H3 : ∀ s' ∈ rest, idf s' ∉ (placed ++ [(⟨nid, idf s⟩ : Elem)]).map Elem.key := by
        intro s' hs' hmem
        rw [List.map_append] at hmem
        cases List.mem_append.mp hmem with
        | inl h => exact hplaced s' (List.mem_cons_of_mem _ hs') h
        | inr h =>
          have heq : idf s' = idf s := by simpa using h
          apply hkS
          rw [← heq]
          exact List.mem_map_of_mem idf hs'
      have H4 : ∀ c' ∈ pending, c'.key ∈ rest.map idf := by
        intro c' hc'
        have hkey := hpend c' hc'
        rw [List.map_cons] at hkey
        cases List.mem_cons.mp hkey with
        | inr h => exact h
        | inl h =>
          exfalso
          apply hknot
          rw [← h]
          exact List.mem_map_of_mem _ hc'
      have H5 : ∀ s' ∈ rest, ∀ c', mapGet childMap (idf s') = some c' →
          c' ∈ pending ∧ c'.key = idf s' :=
        fun s' hs' c' hg => hsome s' (List.mem_cons_of_mem _ hs') c' hg
      have H6 : ∀ s' ∈ rest, mapGet childMap (idf s') = none →
          idf s' ∉ pending.map Elem.key :=
        fun s' hs' hg => hnone s' (List.mem_cons_of_mem _ hs') hg
      obtain ⟨tail, ops', nid', heq, hkeys⟩ :=
        ih (placed ++ [(⟨nid, idf s⟩ : Elem)]) pending (ops ++ delta) (nid + 1)
          hndS' H2 H3 H4 H5 H6
      refine ⟨(⟨nid, idf s⟩ : Elem) :: tail, ops', nid', ?_, ?_⟩
      · simp only [listLoop, hget, hins1, hins2]
        rw [show placed.length + 1 = (placed ++ [(⟨nid, idf s⟩ : Elem)]).length by simp]
        rw [heq]
        simp
      · rw [List.map_cons, hkeys, List.map_cons]

end Mild

namespace Mild

/-- C5: for every call `list(itemlike, parent, states, send)` in which every
state has a key (its id is neither `null` nor `undefined`), the states' keys
are pairwise distinct, and — the keyed-item data-model invariant — the keys
of the parent's current children are pairwise distinct, the call succeeds
and on return the parent has exactly `states.length` children whose keys
are, position by position, exactly the keys of `states`: the children end
up in exactly the order of `states`. -/
theorem C5_list_order {S : Type} (idf : S → JsVal) (parent : List Elem)
    (states : List S) (nid : Nat)
    (hasKey : ∀ s ∈ states, idf s ≠ JsVal.null ∧ idf s ≠ JsVal.undef)
    (hndS : (states.map idf).Nodup)
    (hndP : (parent.map Elem.key).Nodup) :
    ∃ st : ListSt, listRun idf parent states nid = Except.ok st ∧
      st.children.length = states.length ∧
      st.children.map Elem.key = states.map idf := by
  obtain ⟨m, hm, hmHas⟩ := stateMap_has idf states (fun s hs => (hasKey s hs).1)
  have hparentNd : parent.Nodup := List.Nodup.of_map Elem.key hndP
  have hsurv : (removeAll parent (parent.filter fun c => !(mapHas m c.key))).1
      = parent.filter (fun c => mapHas m c.key) := by
    rw [removeAll_children]
    exact removeFilter _ parent hparentNd
  have hsubl : List.Sublist
      ((parent.filter (fun c => mapHas m c.key)).map Elem.key)
      (parent.map Elem.key) :=
    (List.filter_sublist parent).map Elem.key
  have h2 : ((([] : List Elem) ++ parent.filter (fun c => mapHas m c.key)).map
      Elem.key).Nodup := by
    rw [List.nil_append]
    exact hndP.sublist hsubl
  have h3 : ∀ s ∈ states, idf s ∉ ([] : List Elem).map Elem.key := by simp
  have h4 : ∀ c ∈ parent.filter (fun c => mapHas m c.key),
      c.key ∈ states.map idf := by
    intro c hc
    exact (hmHas c.key).mp (List.mem_filter.mp hc).2
  have h5 : ∀ s ∈ states, ∀ c, mapGet (buildChildMap parent) (idf s) = some c →
      c ∈ parent.filter (fun c => mapHas m c.key) ∧ c.key = idf s := by
    intro s hs c hg
    obtain ⟨hcp, hck⟩ := childMap_get_some hg
    refine ⟨?_, hck⟩
    rw [List.mem_filter]
    refine ⟨hcp, ?_⟩
    rw [hck]
    exact (hmHas (idf s)).mpr (List.mem_map_of_mem idf hs)
  have h6 : ∀ s ∈ states, mapGet (buildChildMap parent) (idf s) = none →
      idf s ∉ (parent.filter (fun c => mapHas m c.key)).map Elem.key := by
    intro s hs hg hmem
    exact childMap_get_none hg (hsubl.subset hmem)
  obtain ⟨tail, ops', nid', heq, hkeys⟩ :=
    listLoop_spec idf (buildChildMap parent) states []
      (parent.filter (fun c => mapHas m c.key))
      (removeAll parent (parent.filter fun c => !(mapHas m c.key))).2 nid
      hndS h2 h3 h4 h5 h6
  simp only [List.length_nil, List.nil_append] at heq
  refine ⟨⟨tail, ops', nid'⟩, ?_, ?_, hkeys⟩
  · simp only [listRun, hm]
    rw [hsurv, heq]
  · have hlen := congrArg List.length hkeys
    simpa using hlen

/-- C5 (witness): two fresh keyed states rendered into an empty parent
produce exactly two children carrying keys "a", "b" in order. -/
theorem C5_witness :
    ∃ st : ListSt,
      listRun getId [] [⟨JsVal.str "a"⟩, ⟨JsVal.str "b"⟩] 0 = Except.ok st ∧
      st.children.length
        = [JsObj.mk (JsVal.str "a"), JsObj.mk (JsVal.str "b")].length ∧
      st.children.map Elem.key
        = [JsObj.mk (JsVal.str "a"), JsObj.mk (JsVal.str "b")].map getId :=
  C5_list_order getId [] [⟨JsVal.str "a"⟩, ⟨JsVal.str "b"⟩] 0
    (by
      intro s hs
      simp only [List.mem_cons, List.not_mem_nil, or_false] at hs
      rcases hs with h | h <;> subst h <;> exact ⟨by decide, by decide⟩)
    (by simp [getId])
    (by simp)

end Mild
